import Mathlib

/-!
Verification development for the CSR3 sparse-matrix engine of the chrono
repository (src/src/chrono/core/ChCSR3Matrix.h and
src/src/chrono_mkl/ChCSR3Matrix.h), together with the
ChSparsityPatternLearner helper declared inline in the core header.

The headers in the repository declare the classes and give inline bodies for
GetNNZ, Resize and the whole ChSparsityPatternLearner; the out-of-line bodies
(constructor, SetElement, GetElement, Compress, Reset) are not part of the
repository snapshot, so those operations are modelled from the specification
document.  Machine doubles are modelled by rational numbers: none of the
properties considered here involves rounding, only storing and comparing
stored payloads.
-/

namespace Chrono

/-- One slot of the parallel trailIndex/values/initialized_element buffers.
`trail = -1` is the sentinel meaning the slot is a reserved hole; the
`explicit_zero` field models the `initialized_element` bit that marks a value
intentionally set to exactly zero. -/
structure Slot where
  trail : Int
  value : Rat
  explicit_zero : Bool
deriving DecidableEq

/-- The sentinel hole slot: trailing index -1, meaningless payload. -/
def holeSlot : Slot := ⟨-1, 0, false⟩

/-- A slot is a hole when its trailing index is the -1 sentinel. -/
def isHole (sl : Slot) : Bool := sl.trail < 0

/-- The real entries of a block: (trailing index, value) pairs of the slots
whose trailing index is not the sentinel, in storage order. -/
def reals (block : List Slot) : List (Int × Rat) :=
  block.filterMap (fun sl => if 0 ≤ sl.trail then some (sl.trail, sl.value) else none)

/-- Trailing indices of the real entries of a block, in storage order. -/
def realTrails (block : List Slot) : List Int :=
  (reals block).map (fun p => p.1)

/-- First-match association lookup on a list of (trailing index, value) pairs. -/
def rlookup : List (Int × Rat) → Int → Option Rat
  | [], _ => none
  | p :: ps, c => if p.1 = c then some p.2 else rlookup ps c

/-- Offsets of a sequence of block lengths: `offsets ns` lists the partial
sums of `ns` starting at 0, ending with the total. -/
def offsets : List Nat → List Nat
  | [] => [0]
  | n :: ns => 0 :: (offsets ns).map (fun m => n + m)

/-- Shallow state of a ChCSR3Matrix.  The three parallel raw arrays are
recovered from the per-leading-dimension blocks by `leadIndexOf`,
`trailIndexOf` and `valuesOf`; a block list is exactly the flat arrays
together with the monotone offset array `leadIndex`. -/
structure ChCSR3Matrix where
  m_num_rows : Nat
  m_num_cols : Nat
  row_major_format : Bool
  isCompressed : Bool
  max_shifts : Nat
  blocks : List (List Slot)
deriving DecidableEq

namespace ChCSR3Matrix

/-- Leading dimension: rows if row-major, else columns. -/
def leadDim (s : ChCSR3Matrix) : Nat :=
  if s.row_major_format then s.m_num_rows else s.m_num_cols

/-- Trailing dimension: the other axis. -/
def trailDim (s : ChCSR3Matrix) : Nat :=
  if s.row_major_format then s.m_num_cols else s.m_num_rows

/-- The block of slots of leading index `lead`. -/
def blockAt (s : ChCSR3Matrix) (lead : Nat) : List Slot :=
  s.blocks.getD lead []

/-- The derived leadIndex array: starting offset of every block, plus the
total slot count at the end. -/
def leadIndexOf (blocks : List (List Slot)) : List Nat :=
  offsets (blocks.map List.length)

/-- The derived flat trailIndex array. -/
def trailIndexOf (blocks : List (List Slot)) : List Int :=
  (blocks.map (fun b => b.map (fun sl => sl.trail))).flatten

/-- The derived flat values array. -/
def valuesOf (blocks : List (List Slot)) : List Rat :=
  (blocks.map (fun b => b.map (fun sl => sl.value))).flatten

/-- Translated from the source (inline in both headers): `GetNNZ` returns
`trailIndex.size()`, the raw slot count. -/
def GetNNZ (s : ChCSR3Matrix) : Nat :=
  (trailIndexOf s.blocks).length

/-- Whether the slot at physical index `i` of a block is a sentinel hole. -/
def holeAt (block : List Slot) (i : Nat) : Bool :=
  match block[i]? with
  | some sl => isHole sl
  | none => false

/-- Modelled from the spec: the sorted insertion position for trailing index
`c` in a row block, i.e. the physical index of the first real entry whose
trailing index exceeds `c` (the block length when there is none). -/
def insPos (block : List Slot) (c : Int) : Nat :=
  block.findIdx (fun sl => 0 ≤ sl.trail && c < sl.trail)

/-- Modelled from the spec: outward search for the nearest hole around
position `p`, at distances `d, d+1, ...` while fuel lasts (the backward
candidate at each distance is preferred). -/
def nearestHoleFrom (block : List Slot) (p : Nat) : Nat → Nat → Option Nat
  | _, 0 => none
  | d, fuel + 1 =>
    if d ≤ p ∧ holeAt block (p - d) then some (p - d)
    else if holeAt block (p + d) then some (p + d)
    else nearestHoleFrom block p (d + 1) fuel

/-- Modelled from the spec: consume the hole at physical index `h` and open a
gap at insertion position `p`, shifting the intervening real entries by one
slot; the new slot `sl` is written into the gap. -/
def insertAt (block : List Slot) (p h : Nat) (sl : Slot) : List Slot :=
  if h < p then
    block.take h ++ (block.take p).drop (h + 1) ++ [sl] ++ block.drop p
  else
    block.take p ++ [sl] ++ (block.take h).drop p ++ block.drop (h + 1)

/-- The duplicate-write update applied to the slot holding trailing index
`c`: overwrite the payload when `overwrite` is true, else leave the slot
unchanged.  Slots with another trailing index are untouched. -/
def owUpdate (c : Int) (v : Rat) (overwrite : Bool) (sl : Slot) : Slot :=
  if sl.trail = c then
    (if overwrite then { sl with value := v, explicit_zero := decide (v = 0) } else sl)
  else sl

/-- Modelled from the spec: the row-local effect of SetElement.  If a real
entry with this trailing index exists, overwrite it (or leave it when
`overwrite` is false); otherwise insert at the sorted position using the
nearest hole within `maxShifts`; `none` when no hole is reachable, which
triggers the reallocation fallback. -/
def setRow (block : List Slot) (c : Int) (v : Rat) (overwrite : Bool) (maxShifts : Nat) :
    Option (List Slot) :=
  if block.any (fun sl => sl.trail = c) then
    some (block.map (owUpdate c v overwrite))
  else
    match nearestHoleFrom block (insPos block c) 0 (min (maxShifts + 1) (block.length + 1)) with
    | some h => some (insertAt block (insPos block c) h ⟨c, v, decide (v = 0)⟩)
    | none => none

/-- Modelled from the spec: the reallocation fallback grows every row's
capacity (augmentation factor about 2), appending fresh holes to every block
while copying all existing slots. -/
def growBlocks (blocks : List (List Slot)) : List (List Slot) :=
  blocks.map (fun b => b ++ List.replicate (b.length + 1) holeSlot)

/-- The leading-dimension selector of a logical (row, col) position: the row
if row-major, else the column. -/
def leadSel (s : ChCSR3Matrix) (row col : Nat) : Nat :=
  if s.row_major_format then row else col

/-- The trailing-dimension coordinate of a logical (row, col) position, as
stored in trailIndex: the column if row-major, else the row. -/
def trailSel (s : ChCSR3Matrix) (row col : Nat) : Int :=
  Int.ofNat (if s.row_major_format then col else row)

/-- Modelled from the spec: SetElement(row, col, insval, overwrite).  Hard
error (`none`) when (row, col) is out of range; otherwise the row-local
insertion, with the whole-matrix reallocation fallback and retry when no hole
is within reach; clears `isCompressed`. -/
def SetElement (s : ChCSR3Matrix) (row col : Nat) (insval : Rat) (overwrite : Bool) :
    Option ChCSR3Matrix :=
  if row < s.m_num_rows ∧ col < s.m_num_cols then
    match setRow (s.blocks.getD (leadSel s row col) []) (trailSel s row col)
        insval overwrite s.max_shifts with
    | some block1 =>
      some { s with blocks := s.blocks.set (leadSel s row col) block1, isCompressed := false }
    | none =>
      match setRow ((growBlocks s.blocks).getD (leadSel s row col) []) (trailSel s row col)
          insval overwrite (((growBlocks s.blocks).getD (leadSel s row col) []).length + 1) with
      | some block1 =>
        some { s with
               blocks := (growBlocks s.blocks).set (leadSel s row col) block1
               isCompressed := false }
      | none => none
  else none

/-- Modelled from the spec: GetElement searches the row's real entries and
returns 0.0 when no real entry is present; it is read-only. -/
def GetElement (s : ChCSR3Matrix) (row col : Nat) : Rat :=
  match rlookup (reals (s.blocks.getD (leadSel s row col) [])) (trailSel s row col) with
  | some v => v
  | none => 0

/-- Modelled from the spec: GetElement as a state transformer, making the
read-only contract explicit: it returns the looked-up value and the
(unchanged) matrix state. -/
def GetElementChecked (s : ChCSR3Matrix) (row col : Nat) : Rat × ChCSR3Matrix :=
  (GetElement s row col, s)

/-- Whether a real entry is stored at (row, col). -/
def hasEntry (s : ChCSR3Matrix) (row col : Nat) : Bool :=
  (s.blocks.getD (leadSel s row col) []).any (fun sl => sl.trail = trailSel s row col)

/-- Compacting one block keeps exactly the real slots, in order. -/
def compressBlock (block : List Slot) : List Slot :=
  block.filter (fun sl => 0 ≤ sl.trail)

/-- Modelled from the spec: Compress slides all real entries of every block
to the front, discards the holes, sets `isCompressed`, and reports whether
any hole was actually removed. -/
def Compress (s : ChCSR3Matrix) : ChCSR3Matrix × Bool :=
  let hadHoles := s.blocks.any (fun b => b.any (fun sl => sl.trail < 0))
  ({ s with blocks := s.blocks.map compressBlock, isCompressed := true }, hadHoles)

/-- Modelled from the spec: the constructor's slot budget.  A hint in (0, 1]
(the argument is a C int, so only the value 1) is a density fraction of
rows*cols, a hint above 1 is an absolute count, and the result is rounded up
so that every leading-dimension row receives at least one slot. -/
def initialSlotCount (nrows ncols : Nat) (nonzeros : Int) : Nat :=
  let base : Nat :=
    if 1 < nonzeros then nonzeros.toNat
    else if 0 < nonzeros then (nonzeros * (nrows * ncols : Nat)).toNat
    else 0
  max base (max nrows ncols)

/-- Modelled from the spec: even bin-filling distribution of `total` slots
over `leadLen` blocks (each block gets the floor share, the first
`total % leadLen` blocks one more). -/
def distributeSlots (total leadLen : Nat) : List Nat :=
  (List.range leadLen).map (fun i => total / leadLen + if i < total % leadLen then 1 else 0)

/-- Modelled from the spec: the constructor
`ChCSR3Matrix(nrows, ncols, row_major_format_on, nonzeros)`; all slots start
as sentinel holes and `max_shifts` starts at INT_MAX as in the header. -/
def mkChCSR3Matrix (nrows ncols : Nat) (row_major_format_on : Bool) (nonzeros : Int) :
    ChCSR3Matrix :=
  let leadLen := if row_major_format_on then nrows else ncols
  let total := initialSlotCount nrows ncols nonzeros
  { m_num_rows := nrows
    m_num_cols := ncols
    row_major_format := row_major_format_on
    isCompressed := false
    max_shifts := 2147483647
    blocks := (distributeSlots total leadLen).map (fun k => List.replicate k holeSlot) }

/-- Total slot count over all blocks (holes included). -/
def totalSlots (s : ChCSR3Matrix) : Nat :=
  (s.blocks.map List.length).sum

/-- Modelled from the spec: Reset reinitializes the logical dimensions and
clears all slots back to sentinel holes, never reducing the occupancy below
the requested budget. -/
def Reset (s : ChCSR3Matrix) (nrows ncols : Nat) (nonzeros : Int) : ChCSR3Matrix :=
  let leadLen := if s.row_major_format then nrows else ncols
  let total := max (initialSlotCount nrows ncols nonzeros) (totalSlots s)
  { s with
    m_num_rows := nrows
    m_num_cols := ncols
    isCompressed := false
    blocks := (distributeSlots total leadLen).map (fun k => List.replicate k holeSlot) }

/-- Translated from the source (inline in src/src/chrono/core/ChCSR3Matrix.h,
lines 132-135): `Resize` calls `Reset` and returns true. -/
def Resize (s : ChCSR3Matrix) (nrows ncols : Nat) (nonzeros : Int) :
    ChCSR3Matrix × Bool :=
  (Reset s nrows ncols nonzeros, true)

/-- Translated from the source (inline in src/src/chrono_mkl/ChCSR3Matrix.h,
lines 117-120): the MKL variant's `Resize` has the identical inline body,
`Reset` then `return true`. -/
def MklResize (s : ChCSR3Matrix) (nrows ncols : Nat) (nonzeros : Int) :
    ChCSR3Matrix × Bool :=
  (Reset s nrows ncols nonzeros, true)

end ChCSR3Matrix

/-- One recorded SetElement call. -/
structure SetCall where
  row : Nat
  col : Nat
  v : Rat
  ow : Bool
deriving DecidableEq

/-- Run a sequence of SetElement calls; any out-of-range call aborts. -/
def runSets : ChCSR3Matrix → List SetCall → Option ChCSR3Matrix
  | s, [] => some s
  | s, c :: cs =>
    match ChCSR3Matrix.SetElement s c.row c.col c.v c.ow with
    | some s1 => runSets s1 cs
    | none => none

/-- An operation interleaved between a write and a read: another SetElement
or a Compress. -/
inductive MatOp where
  | set (row col : Nat) (v : Rat) (ow : Bool)
  | compress
deriving DecidableEq

/-- Whether an operation writes the given (row, col) position. -/
def opTargets : MatOp → Nat → Nat → Bool
  | MatOp.set r c _ _, row, col => decide (r = row) && decide (c = col)
  | MatOp.compress, _, _ => false

/-- One step of the operation language. -/
def stepOp (s : ChCSR3Matrix) : MatOp → Option ChCSR3Matrix
  | MatOp.set r c v ow => ChCSR3Matrix.SetElement s r c v ow
  | MatOp.compress => some (ChCSR3Matrix.Compress s).1

/-- Run a sequence of operations; any failing step aborts. -/
def runOps : ChCSR3Matrix → List MatOp → Option ChCSR3Matrix
  | s, [] => some s
  | s, op :: ops =>
    match stepOp s op with
    | some s1 => runOps s1 ops
    | none => none

/-- Insertion of a value into a sorted list, modelling the effect of
`std::list<int>::sort` (for Nat elements any correct ascending sort yields
the same list). -/
def sortedInsert (x : Nat) : List Nat → List Nat
  | [] => [x]
  | y :: ys => if x ≤ y then x :: y :: ys else y :: sortedInsert x ys

/-- Ascending sort of a list of trailing indices. -/
def sortList : List Nat → List Nat
  | [] => []
  | x :: xs => sortedInsert x (sortList xs)

/-- Removal of consecutive duplicates, modelling `std::list<int>::unique`. -/
def uniqueAdj : List Nat → List Nat
  | [] => []
  | [x] => [x]
  | x :: y :: ys => if x = y then uniqueAdj (y :: ys) else x :: uniqueAdj (y :: ys)

/-- Shallow state of a ChSparsityPatternLearner
(src/src/chrono/core/ChCSR3Matrix.h, lines 184-245; the whole class is
inline in the header). -/
structure ChSparsityPatternLearner where
  m_num_rows : Nat
  m_num_cols : Nat
  row_major_format : Bool
  row_lists : List (List Nat)
deriving DecidableEq

namespace ChSparsityPatternLearner

/-- Translated from the source (header lines 193-200): the constructor sizes
`row_lists` to the leading dimension chosen by the orientation flag. -/
def mkLearner (nrows ncols : Nat) (row_major_format_in : Bool) : ChSparsityPatternLearner :=
  { m_num_rows := nrows
    m_num_cols := ncols
    row_major_format := row_major_format_in
    row_lists := List.replicate (if row_major_format_in then nrows else ncols) [] }

/-- Translated from the source (header lines 204-207):
`row_lists[insrow].push_back(inscol)`.  The vector subscript is the `insrow`
argument regardless of the orientation flag; a subscript outside
`row_lists` is undefined behaviour, modelled as `none`. -/
def SetElement (l : ChSparsityPatternLearner) (insrow inscol : Nat) :
    Option ChSparsityPatternLearner :=
  if insrow < l.row_lists.length then
    some { l with row_lists := l.row_lists.set insrow (l.row_lists.getD insrow [] ++ [inscol]) }
  else none

/-- Translated from the source (header line 209): GetElement always returns 0. -/
def GetElement (_ : ChSparsityPatternLearner) (_ _ : Nat) : Rat := 0

/-- Translated from the source (header lines 225-233): every row list is
sorted and deduplicated in place, and the list of lists is returned. -/
def GetSparsityPattern (l : ChSparsityPatternLearner) : List (List Nat) :=
  l.row_lists.map (fun lst => uniqueAdj (sortList lst))

end ChSparsityPatternLearner

/-- Run a sequence of learner SetElement calls; an out-of-bounds subscript
aborts. -/
def runLearner : ChSparsityPatternLearner → List (Nat × Nat) → Option ChSparsityPatternLearner
  | l, [] => some l
  | l, c :: cs =>
    match ChSparsityPatternLearner.SetElement l c.1 c.2 with
    | some l1 => runLearner l1 cs
    | none => none

/-- The columns recorded for a given row by a call sequence, in call order. -/
def colsFor (calls : List (Nat × Nat)) (r : Nat) : List Nat :=
  (calls.filter (fun c => c.1 = r)).map (fun c => c.2)

/-! ### Real entries and lookup: basic facts -/

open ChCSR3Matrix

theorem reals_nil : reals [] = [] := rfl

theorem reals_cons_hole {sl : Slot} (h : sl.trail < 0) (l : List Slot) :
    reals (sl :: l) = reals l := by
  simp [reals, List.filterMap_cons, if_neg (Int.not_le.mpr h)]

theorem reals_cons_real {sl : Slot} (h : 0 ≤ sl.trail) (l : List Slot) :
    reals (sl :: l) = (sl.trail, sl.value) :: reals l := by
  simp [reals, List.filterMap_cons, if_pos h]

theorem reals_append (l1 l2 : List Slot) : reals (l1 ++ l2) = reals l1 ++ reals l2 := by
  simp [reals, List.filterMap_append]

theorem reals_replicate_hole (k : Nat) : reals (List.replicate k holeSlot) = [] := by
  induction k with
  | zero => rfl
  | succ n ih => rw [List.replicate_succ, reals_cons_hole (by decide)]; exact ih

theorem mem_reals {p : Int × Rat} {block : List Slot} (h : p ∈ reals block) :
    ∃ sl ∈ block, sl.trail = p.1 ∧ 0 ≤ sl.trail := by
  obtain ⟨sl, hmem, hf⟩ := List.mem_filterMap.mp h
  by_cases h0 : 0 ≤ sl.trail
  · rw [if_pos h0] at hf
    exact ⟨sl, hmem, by cases hf; exact ⟨rfl, h0⟩⟩
  · rw [if_neg h0] at hf; cases hf

theorem keys_ne_of_not_any {block : List Slot} {c : Int}
    (h : block.any (fun sl => sl.trail = c) = false) :
    ∀ p ∈ reals block, p.1 ≠ c := by
  intro p hp hpc
  obtain ⟨sl, hmem, htr, _⟩ := mem_reals hp
  have := List.any_eq_false.mp h sl hmem
  simp [htr, hpc] at this

theorem rlookup_eq_none {A : List (Int × Rat)} {c : Int} (h : ∀ p ∈ A, p.1 ≠ c) :
    rlookup A c = none := by
  induction A with
  | nil => rfl
  | cons p ps ih =>
    rw [rlookup, if_neg (h p (List.mem_cons_self p ps))]
    exact ih fun q hq => h q (List.mem_cons_of_mem p hq)

theorem rlookup_append_left {A : List (Int × Rat)} {c : Int} {v : Rat} (B : List (Int × Rat))
    (h : rlookup A c = some v) : rlookup (A ++ B) c = some v := by
  induction A with
  | nil => cases h
  | cons p ps ih =>
    rw [rlookup] at h
    rw [List.cons_append, rlookup]
    by_cases hc : p.1 = c
    · rwa [if_pos hc] at h ⊢
    · rw [if_neg hc] at h ⊢; exact ih h

theorem rlookup_append_right {A : List (Int × Rat)} {c : Int} (B : List (Int × Rat))
    (h : rlookup A c = none) : rlookup (A ++ B) c = rlookup B c := by
  induction A with
  | nil => rfl
  | cons p ps ih =>
    rw [rlookup] at h
    rw [List.cons_append, rlookup]
    by_cases hc : p.1 = c
    · rw [if_pos hc] at h; cases h
    · rw [if_neg hc] at h ⊢; exact ih h

theorem rlookup_cons_self (c : Int) (v : Rat) (B : List (Int × Rat)) :
    rlookup ((c, v) :: B) c = some v := by
  simp [rlookup]

theorem rlookup_cons_ne {cx c : Int} (x : Rat) (B : List (Int × Rat)) (h : cx ≠ c) :
    rlookup ((cx, x) :: B) c = rlookup B c := by
  simp [rlookup, h]

theorem rlookup_isSome_of_any {block : List Slot} {c : Int} (hc : 0 ≤ c)
    (h : block.any (fun sl => sl.trail = c) = true) :
    (rlookup (reals block) c).isSome = true := by
  induction block with
  | nil => cases h
  | cons sl l ih =>
    rcases List.any_eq_true.mp h with ⟨x, hx, hpx⟩
    rcases List.mem_cons.mp hx with rfl | hxl
    · have htr : x.trail = c := by simpa using hpx
      rw [reals_cons_real (htr ▸ hc), htr, rlookup_cons_self]; rfl
    · have hany : l.any (fun sl => sl.trail = c) = true :=
        List.any_eq_true.mpr ⟨x, hxl, hpx⟩
      by_cases h0 : 0 ≤ sl.trail
      · rw [reals_cons_real h0]
        by_cases he : sl.trail = c
        · rw [he, rlookup_cons_self]; rfl
        · rw [rlookup_cons_ne _ _ he]; exact ih hany
      · rw [reals_cons_hole (Int.not_le.mp h0)]; exact ih hany

/-! ### The duplicate-write update -/

theorem owUpdate_trail (c : Int) (v : Rat) (ow : Bool) (sl : Slot) :
    (owUpdate c v ow sl).trail = sl.trail := by
  unfold owUpdate
  split
  · split <;> rfl
  · rfl

theorem owUpdate_false (c : Int) (v : Rat) (sl : Slot) : owUpdate c v false sl = sl := by
  simp [owUpdate]

theorem map_owUpdate_false (c : Int) (v : Rat) (block : List Slot) :
    block.map (owUpdate c v false) = block := by
  have : owUpdate c v false = id := funext (owUpdate_false c v)
  rw [this, List.map_id]

theorem reals_map_owUpdate {c : Int} (hc : 0 ≤ c) (v : Rat) (block : List Slot) :
    reals (block.map (owUpdate c v true)) =
      (reals block).map (fun p => if p.1 = c then (p.1, v) else p) := by
  induction block with
  | nil => rfl
  | cons sl l ih =>
    rw [List.map_cons]
    by_cases h0 : 0 ≤ sl.trail
    · rw [reals_cons_real (by rw [owUpdate_trail]; exact h0),
        reals_cons_real h0, List.map_cons, owUpdate_trail, ih]
      congr 1
      by_cases he : sl.trail = c
      · simp [owUpdate, he]
      · simp [owUpdate, he]
    · have hneg : sl.trail < 0 := Int.not_le.mp h0
      rw [reals_cons_hole (by rw [owUpdate_trail]; exact hneg), reals_cons_hole hneg]
      exact ih

theorem rlookup_map_update_self {A : List (Int × Rat)} {c : Int} (v : Rat)
    (h : (rlookup A c).isSome = true) :
    rlookup (A.map (fun p => if p.1 = c then (p.1, v) else p)) c = some v := by
  induction A with
  | nil => cases h
  | cons p ps ih =>
    rw [List.map_cons]
    by_cases hc : p.1 = c
    · rw [if_pos hc, rlookup, if_pos hc]
    · rw [if_neg hc, rlookup, if_neg hc]
      rw [rlookup, if_neg hc] at h
      exact ih h

theorem rlookup_map_update_ne {A : List (Int × Rat)} {c c2 : Int} (v : Rat) (h : c2 ≠ c) :
    rlookup (A.map (fun p => if p.1 = c then (p.1, v) else p)) c2 = rlookup A c2 := by
  induction A with
  | nil => rfl
  | cons p ps ih =>
    by_cases hc : p.1 = c
    · simp [rlookup, hc, Ne.symm h, ih]
    · by_cases h2 : p.1 = c2
      · simp [rlookup, hc, h2, h]
      · simp [rlookup, hc, h2, ih]

/-! ### The hole search and the shifting insertion -/

theorem holeAt_eq_true {block : List Slot} {i : Nat} :
    holeAt block i = true ↔ ∃ sl, block[i]? = some sl ∧ sl.trail < 0 := by
  unfold holeAt isHole
  cases h : block[i]? with
  | none => simp
  | some sl => simp [decide_eq_true_iff]

theorem nearestHoleFrom_hole {block : List Slot} {p : Nat} :
    ∀ {d fuel h : Nat}, nearestHoleFrom block p d fuel = some h → holeAt block h = true := by
  intro d fuel
  induction fuel generalizing d with
  | zero => intro h hh; cases hh
  | succ n ih =>
    intro h hh
    rw [nearestHoleFrom] at hh
    split at hh
    · next hcond => cases hh; exact hcond.2
    · split at hh
      · next hcond => cases hh; exact hcond
      · exact ih hh

theorem reals_insertAt {block : List Slot} {p h : Nat} (sl : Slot)
    (hp : p ≤ block.length) (hh : holeAt block h = true) :
    reals (insertAt block p h sl) =
      reals (block.take p) ++ reals [sl] ++ reals (block.drop p) := by
  obtain ⟨slh, hget, hneg⟩ := holeAt_eq_true.mp hh
  have hlen : h < block.length := by
    rcases List.getElem?_eq_some.mp hget with ⟨hl, _⟩
    exact hl
  unfold insertAt
  split
  · next hlt =>
    have hkey : reals (block.take p) =
        reals (block.take h) ++ reals ((block.take p).drop (h + 1)) := by
      conv_lhs => rw [← List.take_append_drop h (block.take p)]
      have h1 : (block.take p).take h = block.take h := by
        rw [List.take_take, Nat.min_eq_left (Nat.le_of_lt hlt)]
      have h2 : h < (block.take p).length := by
        rw [List.length_take]
        exact Nat.lt_min.mpr ⟨hlt, hlen⟩
      have h3 : (block.take p)[h] = slh := by
        have := List.getElem?_take_of_lt (l := block) (n := p) (m := h) hlt
        rw [hget] at this
        exact List.getElem_eq_iff.mpr this
      rw [List.drop_eq_getElem_cons h2, h3, h1, reals_append,
        reals_cons_hole hneg]
    rw [reals_append, reals_append, reals_append, hkey]
  · next hge =>
    have hple : p ≤ h := Nat.le_of_not_lt hge
    have hkey : reals (block.drop p) =
        reals ((block.take h).drop p) ++ reals (block.drop (h + 1)) := by
      conv_lhs => rw [← List.take_append_drop (h - p) (block.drop p)]
      have h1 : (block.drop p).drop (h - p) = block.drop h := by
        rw [List.drop_drop, Nat.add_sub_cancel' hple]
      have h2 : (block.drop p).take (h - p) = (block.take h).drop p := by
        rw [List.drop_take]
      have h3 : block.drop h = slh :: block.drop (h + 1) := by
        rw [List.drop_eq_getElem_cons hlen]
        congr 1
        exact List.getElem_eq_iff.mpr hget
      rw [h1, h2, h3, reals_append, reals_cons_hole hneg]
    rw [reals_append, reals_append, reals_append, hkey]
    simp [List.append_assoc]

/-! ### The two branches of setRow -/

theorem setRow_any {block : List Slot} {c : Int} {v : Rat} {ow : Bool} {ms : Nat}
    {block1 : List Slot}
    (hany : block.any (fun sl => sl.trail = c) = true)
    (hset : setRow block c v ow ms = some block1) :
    block1 = block.map (owUpdate c v ow) := by
  rw [setRow, if_pos hany] at hset
  cases hset
  rfl

theorem setRow_insert {block : List Slot} {c : Int} {v : Rat} {ow : Bool} {ms : Nat}
    {block1 : List Slot} (hc : 0 ≤ c)
    (hany : block.any (fun sl => sl.trail = c) = false)
    (hset : setRow block c v ow ms = some block1) :
    ∃ A B, reals block = A ++ B ∧ reals block1 = A ++ (c, v) :: B := by
  rw [setRow, if_neg (by rw [hany]; exact Bool.false_ne_true)] at hset
  cases hnh : nearestHoleFrom block (insPos block c) 0 (min (ms + 1) (block.length + 1)) with
  | none => rw [hnh] at hset; cases hset
  | some h =>
    rw [hnh] at hset
    cases hset
    have hp : insPos block c ≤ block.length := List.findIdx_le_length _
    refine ⟨reals (block.take (insPos block c)), reals (block.drop (insPos block c)), ?_, ?_⟩
    · rw [← reals_append, List.take_append_drop]
    · rw [reals_insertAt _ hp (nearestHoleFrom_hole hnh)]
      rw [show reals [(⟨c, v, decide (v = 0)⟩ : Slot)] = [(c, v)] from by
        rw [reals_cons_real hc]; rfl]
      simp [List.append_assoc]

theorem rlookup_middle_ne {A B : List (Int × Rat)} {cx c : Int} (x : Rat) (h : cx ≠ c) :
    rlookup (A ++ (cx, x) :: B) c = rlookup (A ++ B) c := by
  cases hA : rlookup A c with
  | some w => rw [rlookup_append_left _ hA, rlookup_append_left _ hA]
  | none =>
    rw [rlookup_append_right _ hA, rlookup_append_right _ hA, rlookup_cons_ne _ _ h]

/-! ### getD, set, map and grow helpers -/

theorem getD_set_self {α : Type} {l : List α} {i : Nat} {a d : α} (h : i < l.length) :
    (l.set i a).getD i d = a := by
  simp [List.getD_eq_getElem?_getD, List.getElem?_set_self h]

theorem getD_set_ne {α : Type} {l : List α} {i j : Nat} {a d : α} (h : i ≠ j) :
    (l.set i a).getD j d = l.getD j d := by
  simp [List.getD_eq_getElem?_getD, List.getElem?_set_ne h]

theorem growBlocks_length (blocks : List (List Slot)) :
    (growBlocks blocks).length = blocks.length := by
  simp [growBlocks]

theorem reals_growBlocks_getD (blocks : List (List Slot)) (i : Nat) :
    reals ((growBlocks blocks).getD i []) = reals (blocks.getD i []) := by
  rw [growBlocks, List.getD_eq_getElem?_getD, List.getD_eq_getElem?_getD, List.getElem?_map]
  cases h : blocks[i]? with
  | none => simp
  | some b => simp [reals_append, reals_replicate_hole]

theorem reals_compressBlock (b : List Slot) : reals (compressBlock b) = reals b := by
  induction b with
  | nil => rfl
  | cons sl l ih =>
    by_cases h0 : 0 ≤ sl.trail
    · rw [compressBlock, List.filter_cons_of_pos (by simpa using h0)]
      rw [reals_cons_real h0, reals_cons_real h0, ← ih]
      rfl
    · rw [compressBlock, List.filter_cons_of_neg (by simpa using h0)]
      rw [reals_cons_hole (Int.not_le.mp h0), ← ih]
      rfl

theorem compressBlock_no_holes {b : List Slot} {sl : Slot} (h : sl ∈ compressBlock b) :
    0 ≤ sl.trail := by
  have := List.of_mem_filter h
  simpa using this

theorem Compress_blockAt (s : ChCSR3Matrix) (i : Nat) :
    (Compress s).1.blocks.getD i [] = compressBlock (s.blocks.getD i []) := by
  show (s.blocks.map compressBlock).getD i [] = _
  rw [List.getD_eq_getElem?_getD, List.getD_eq_getElem?_getD, List.getElem?_map]
  cases h : s.blocks[i]? <;> simp [h] <;> rfl

/-! ### SetElement: success characterization -/

theorem SetElement_some {s s1 : ChCSR3Matrix} {row col : Nat} {v : Rat} {ow : Bool}
    (h : SetElement s row col v ow = some s1) :
    row < s.m_num_rows ∧ col < s.m_num_cols ∧
    s1.m_num_rows = s.m_num_rows ∧ s1.m_num_cols = s.m_num_cols ∧
    s1.row_major_format = s.row_major_format ∧ s1.max_shifts = s.max_shifts ∧
    ∃ base : List (List Slot), ∃ ms1 : Nat, ∃ block1 : List Slot,
      base.length = s.blocks.length ∧
      (∀ i, reals (base.getD i []) = reals (s.blocks.getD i [])) ∧
      setRow (base.getD (leadSel s row col) []) (trailSel s row col) v ow ms1 = some block1 ∧
      s1.blocks = base.set (leadSel s row col) block1 := by
  rw [SetElement] at h
  split at h
  · next hin =>
    split at h
    · next block1 hsr =>
      cases h
      exact ⟨hin.1, hin.2, rfl, rfl, rfl, rfl, s.blocks, s.max_shifts, block1, rfl,
        fun i => rfl, hsr, rfl⟩
    · next hsr0 =>
      split at h
      · next block1 hsr =>
        cases h
        exact ⟨hin.1, hin.2, rfl, rfl, rfl, rfl, growBlocks s.blocks, _, block1,
          growBlocks_length s.blocks, fun i => reals_growBlocks_getD s.blocks i, hsr, rfl⟩
      · next => cases h
  · cases h

/-! ### GetElement after SetElement and Compress -/

theorem trailSel_nonneg (s : ChCSR3Matrix) (row col : Nat) : 0 ≤ trailSel s row col := by
  rw [trailSel]; exact Int.ofNat_nonneg _

theorem leadSel_lt_leadDim {s : ChCSR3Matrix} {row col : Nat}
    (hr : row < s.m_num_rows) (hc : col < s.m_num_cols) :
    leadSel s row col < leadDim s := by
  rw [leadSel, leadDim]
  cases h : s.row_major_format <;> simp [hr, hc]

theorem rlookup_mem {A : List (Int × Rat)} {c : Int} {v : Rat} (h : rlookup A c = some v) :
    (c, v) ∈ A := by
  induction A with
  | nil => cases h
  | cons p ps ih =>
    rw [rlookup] at h
    by_cases hc : p.1 = c
    · rw [if_pos hc] at h
      cases h
      subst hc
      exact List.mem_cons_self p ps
    · rw [if_neg hc] at h
      exact List.mem_cons_of_mem p (ih h)

theorem any_of_rlookup_isSome {block : List Slot} {c : Int}
    (h : (rlookup (reals block) c).isSome = true) :
    block.any (fun sl => sl.trail = c) = true := by
  cases hl : rlookup (reals block) c with
  | none => rw [hl] at h; cases h
  | some w =>
    obtain ⟨sl, hmem, htr, _⟩ := mem_reals (rlookup_mem hl)
    exact List.any_eq_true.mpr ⟨sl, hmem, by simpa using htr⟩

theorem GetElement_SetElement_self {s s1 : ChCSR3Matrix} {row col : Nat} {v : Rat}
    (hlen : s.blocks.length = leadDim s)
    (h : SetElement s row col v true = some s1) :
    GetElement s1 row col = v ∧ s1.blocks.length = leadDim s1 ∧
      hasEntry s1 row col = true := by
  obtain ⟨hr, hc, hrows, hcols, hrm, hms, base, ms1, block1, hbl, hbr, hsr, hbs⟩ :=
    SetElement_some h
  have hlead : leadSel s row col < base.length := by
    rw [hbl, hlen]; exact leadSel_lt_leadDim hr hc
  have hgd : s1.blocks.getD (leadSel s row col) [] = block1 := by
    rw [hbs]; exact getD_set_self hlead
  have hsel1 : leadSel s1 row col = leadSel s row col := by rw [leadSel, leadSel, hrm]
  have hsel2 : trailSel s1 row col = trailSel s row col := by rw [trailSel, trailSel, hrm]
  have hkey : rlookup (reals block1) (trailSel s row col) = some v := by
    cases hany : (base.getD (leadSel s row col) []).any
        (fun sl => sl.trail = trailSel s row col) with
    | true =>
      rw [setRow_any hany hsr, reals_map_owUpdate (trailSel_nonneg s row col) v]
      exact rlookup_map_update_self v (rlookup_isSome_of_any (trailSel_nonneg s row col) hany)
    | false =>
      obtain ⟨A, B, hAB, hAB1⟩ := setRow_insert (trailSel_nonneg s row col) hany hsr
      have hkeys := keys_ne_of_not_any hany
      rw [hAB] at hkeys
      rw [hAB1, rlookup_append_right _
        (rlookup_eq_none fun p hp => hkeys p (List.mem_append_left _ hp))]
      exact rlookup_cons_self _ _ _
  refine ⟨?_, ?_, ?_⟩
  · rw [GetElement, hsel1, hsel2, hgd, hkey]
  · rw [hbs, List.length_set, hbl, hlen, leadDim, leadDim, hrm, hrows, hcols]
  · rw [hasEntry, hsel1, hsel2, hgd]
    exact any_of_rlookup_isSome (by rw [hkey]; rfl)

theorem GetElement_SetElement_other {s s1 : ChCSR3Matrix} {row col row2 col2 : Nat}
    {v : Rat} {ow : Bool}
    (h : SetElement s row2 col2 v ow = some s1)
    (hne : ¬(row2 = row ∧ col2 = col)) :
    GetElement s1 row col = GetElement s row col := by
  obtain ⟨hr, hc, hrows, hcols, hrm, hms, base, ms1, block1, hbl, hbr, hsr, hbs⟩ :=
    SetElement_some h
  have hsel1 : leadSel s1 row col = leadSel s row col := by rw [leadSel, leadSel, hrm]
  have hsel2 : trailSel s1 row col = trailSel s row col := by rw [trailSel, trailSel, hrm]
  have hkey : rlookup (reals (s1.blocks.getD (leadSel s row col) [])) (trailSel s row col) =
      rlookup (reals (s.blocks.getD (leadSel s row col) [])) (trailSel s row col) := by
    by_cases hl : leadSel s row2 col2 = leadSel s row col
    · have hct : trailSel s row2 col2 ≠ trailSel s row col := by
        intro hEq
        apply hne
        rw [leadSel, leadSel] at hl
        rw [trailSel, trailSel] at hEq
        cases hrmb : s.row_major_format with
        | true =>
          rw [hrmb] at hl hEq
          simp at hl hEq
          exact ⟨hl, hEq⟩
        | false =>
          rw [hrmb] at hl hEq
          simp at hl hEq
          exact ⟨hEq, hl⟩
      by_cases hlead : leadSel s row2 col2 < base.length
      · have hgd : s1.blocks.getD (leadSel s row col) [] = block1 := by
          rw [hbs, ← hl]; exact getD_set_self hlead
        rw [hgd]
        cases hany : (base.getD (leadSel s row2 col2) []).any
            (fun sl => sl.trail = trailSel s row2 col2) with
        | true =>
          rw [setRow_any hany hsr]
          cases ow with
          | false => rw [map_owUpdate_false, hl, hbr]
          | true =>
            rw [reals_map_owUpdate (trailSel_nonneg s row2 col2) v,
              rlookup_map_update_ne v (Ne.symm hct), hl, hbr]
        | false =>
          obtain ⟨A, B, hAB, hAB1⟩ := setRow_insert (trailSel_nonneg s row2 col2) hany hsr
          rw [hAB1, rlookup_middle_ne v hct, ← hAB, hl, hbr]
      · have hbs1 : s1.blocks = base := by
          rw [hbs, List.set_eq_of_length_le (Nat.le_of_not_lt hlead)]
        rw [hbs1, hbr]
    · rw [hbs, getD_set_ne hl, hbr]
  rw [GetElement, GetElement, hsel1, hsel2, hkey]

theorem setRow_any_isSome {block : List Slot} {c : Int} (v : Rat) (ow : Bool) (ms : Nat)
    (hany : block.any (fun sl => sl.trail = c) = true) :
    setRow block c v ow ms = some (block.map (owUpdate c v ow)) := by
  rw [setRow, if_pos hany]

theorem GetElement_congr {s1 s : ChCSR3Matrix} (row col : Nat)
    (hrm : s1.row_major_format = s.row_major_format)
    (hb : ∀ i, reals (s1.blocks.getD i []) = reals (s.blocks.getD i [])) :
    GetElement s1 row col = GetElement s row col := by
  have hsel1 : leadSel s1 row col = leadSel s row col := by rw [leadSel, leadSel, hrm]
  have hsel2 : trailSel s1 row col = trailSel s row col := by rw [trailSel, trailSel, hrm]
  rw [GetElement, GetElement, hsel1, hsel2, hb]

theorem GetElement_SetElement_keep {s s1 : ChCSR3Matrix} {row col : Nat} {v : Rat}
    (hhas : hasEntry s row col = true)
    (h : SetElement s row col v false = some s1) :
    GetElement s1 row col = GetElement s row col := by
  rw [hasEntry] at hhas
  rw [SetElement] at h
  split at h
  · next hin =>
    rw [setRow_any_isSome v false s.max_shifts hhas] at h
    cases h
    refine GetElement_congr row col ?_ ?_
    · rfl
    intro i
    show reals ((s.blocks.set (leadSel s row col)
        ((s.blocks.getD (leadSel s row col) []).map
          (owUpdate (trailSel s row col) v false))).getD i []) =
      reals (s.blocks.getD i [])
    by_cases hi : leadSel s row col = i
    · subst hi
      rw [map_owUpdate_false]
      by_cases hb : leadSel s row col < s.blocks.length
      · rw [getD_set_self hb]
      · rw [List.set_eq_of_length_le (Nat.le_of_not_lt hb)]
    · rw [getD_set_ne hi]
  · cases h

/-! ### Compress -/

theorem GetElement_Compress (s : ChCSR3Matrix) (row col : Nat) :
    GetElement (Compress s).1 row col = GetElement s row col := by
  refine GetElement_congr row col ?_ ?_
  · rfl
  intro i
  rw [show (Compress s).1.blocks = s.blocks.map compressBlock from rfl]
  rw [show s.blocks.map compressBlock = (Compress s).1.blocks from rfl, Compress_blockAt,
    reals_compressBlock]

theorem length_compressBlock (b : List Slot) : (compressBlock b).length = (reals b).length := by
  induction b with
  | nil => rfl
  | cons sl l ih =>
    by_cases h0 : 0 ≤ sl.trail
    · rw [compressBlock, List.filter_cons_of_pos (by simpa using h0), reals_cons_real h0]
      rw [List.length_cons, List.length_cons, ← ih]
      rfl
    · rw [compressBlock, List.filter_cons_of_neg (by simpa using h0),
        reals_cons_hole (Int.not_le.mp h0), ← ih]
      rfl

theorem compressBlock_idem (b : List Slot) : compressBlock (compressBlock b) = compressBlock b :=
  List.filter_eq_self.mpr fun _ ha => (List.mem_filter.mp ha).2

/-! ### Trace preservation -/

theorem stepOp_GetElement {s s1 : ChCSR3Matrix} {op : MatOp} {row col : Nat}
    (hlen : s.blocks.length = leadDim s)
    (hstep : stepOp s op = some s1)
    (hnt : opTargets op row col = false) :
    GetElement s1 row col = GetElement s row col ∧ s1.blocks.length = leadDim s1 := by
  cases op with
  | set r2 c2 v ow =>
    have hne : ¬(r2 = row ∧ c2 = col) := by
      intro hand
      rw [opTargets] at hnt
      simp [hand.1, hand.2] at hnt
    refine ⟨GetElement_SetElement_other hstep hne, ?_⟩
    obtain ⟨_, _, hrows, hcols, hrm, _, base, _, block1, hbl, _, _, hbs⟩ := SetElement_some hstep
    rw [hbs, List.length_set, hbl, hlen, leadDim, leadDim, hrm, hrows, hcols]
  | compress =>
    rw [stepOp] at hstep
    cases hstep
    refine ⟨GetElement_Compress s row col, ?_⟩
    rw [show (Compress s).1.blocks = s.blocks.map compressBlock from rfl, List.length_map, hlen]
    rfl

theorem runOps_GetElement {row col : Nat} :
    ∀ {ops : List MatOp} {s s2 : ChCSR3Matrix},
      s.blocks.length = leadDim s →
      runOps s ops = some s2 →
      (∀ op ∈ ops, opTargets op row col = false) →
      GetElement s2 row col = GetElement s row col ∧ s2.blocks.length = leadDim s2 := by
  intro ops
  induction ops with
  | nil =>
    intro s s2 hlen h _
    rw [runOps] at h
    cases h
    exact ⟨rfl, hlen⟩
  | cons op ops ih =>
    intro s s2 hlen h hops
    rw [runOps] at h
    cases hstep : stepOp s op with
    | none => rw [hstep] at h; cases h
    | some s1 =>
      rw [hstep] at h
      have hfirst := stepOp_GetElement hlen hstep (hops op (List.mem_cons_self op ops))
      have hrest := ih hfirst.2 h fun o ho => hops o (List.mem_cons_of_mem op ho)
      exact ⟨hrest.1.trans hfirst.1, hrest.2⟩

/-! ### Sample states used by the witnesses -/

def sampleM0 : ChCSR3Matrix := mkChCSR3Matrix 3 3 true 1

def sampleM1 : ChCSR3Matrix := (SetElement sampleM0 1 1 5 true).getD sampleM0

def sampleOps : List MatOp := [MatOp.set 0 2 7 true, MatOp.set 2 0 3 true, MatOp.compress]

def sampleM2 : ChCSR3Matrix := (runOps sampleM1 sampleOps).getD sampleM0

def sampleK1 : ChCSR3Matrix := (SetElement sampleM0 0 1 4 true).getD sampleM0

def sampleK2 : ChCSR3Matrix := (SetElement sampleK1 0 1 9 false).getD sampleM0

def sampleK3 : ChCSR3Matrix := (SetElement sampleK1 0 1 9 true).getD sampleM0

/-! ### The claims -/

/-- C1: for every matrix whose block list covers the leading dimension, every
in-range (row, col) and every value v, SetElement(row, col, v) followed later
by GetElement(row, col) returns v, whatever other insertions (at other
positions) or compressions happen in between, and regardless of whether a
capacity reallocation occurred between the write and the read (reallocation
is part of SetElement steps, which the interleaved operation list covers). -/
theorem claim1_set_get_roundtrip {s s1 s2 : ChCSR3Matrix} {row col : Nat} {v : Rat}
    {ops : List MatOp}
    (hlen : s.blocks.length = leadDim s)
    (h1 : SetElement s row col v true = some s1)
    (hops : ∀ op ∈ ops, opTargets op row col = false)
    (h2 : runOps s1 ops = some s2) :
    GetElement s2 row col = v := by
  have hself := GetElement_SetElement_self hlen h1
  have hrun := runOps_GetElement hself.2.1 h2 hops
  rw [hrun.1, hself.1]

/-- Witness for C1: a 3x3 dense-budget matrix, a write of 5 at (1, 1), two
other writes and a compression in between, and the read returns 5. -/
theorem claim1_witness : GetElement sampleM2 1 1 = 5 :=
  @claim1_set_get_roundtrip sampleM0 sampleM1 sampleM2 1 1 5 sampleOps
    (by decide) (by decide) (by decide) (by decide)

/-- C2: Compress is value-preserving: GetElement is unchanged for every
position, every remaining slot is a real entry (trailIndex at least 0)
packed at the front of its row block with no holes, and the derived leadIndex
array equals the tight offsets of the per-row real-entry counts. -/
theorem claim2_compress_value_preserving (s : ChCSR3Matrix) :
    (∀ row col, GetElement (Compress s).1 row col = GetElement s row col) ∧
    (∀ b ∈ (Compress s).1.blocks, ∀ sl ∈ b, 0 ≤ sl.trail) ∧
    leadIndexOf (Compress s).1.blocks = offsets (s.blocks.map fun b => (reals b).length) := by
  refine ⟨fun row col => GetElement_Compress s row col, ?_, ?_⟩
  · intro b hb sl hsl
    rw [show (Compress s).1.blocks = s.blocks.map compressBlock from rfl] at hb
    obtain ⟨b0, _, rfl⟩ := List.mem_map.mp hb
    exact compressBlock_no_holes hsl
  · rw [show (Compress s).1.blocks = s.blocks.map compressBlock from rfl, leadIndexOf,
      List.map_map]
    rw [show List.length ∘ compressBlock = fun b => (reals b).length from funext length_compressBlock]

/-- C3: Compress is idempotent and its boolean return value reports whether
holes were removed: a second Compress right after a first one leaves the
state, and hence the three derived raw arrays, identical, and returns
false. -/
theorem claim3_compress_idempotent (s : ChCSR3Matrix) :
    (Compress (Compress s).1).1 = (Compress s).1 ∧
    (Compress (Compress s).1).2 = false ∧
    leadIndexOf (Compress (Compress s).1).1.blocks = leadIndexOf (Compress s).1.blocks ∧
    trailIndexOf (Compress (Compress s).1).1.blocks = trailIndexOf (Compress s).1.blocks ∧
    valuesOf (Compress (Compress s).1).1.blocks = valuesOf (Compress s).1.blocks := by
  have hblocks : (Compress s).1.blocks.map compressBlock = (Compress s).1.blocks := by
    show (s.blocks.map compressBlock).map compressBlock = s.blocks.map compressBlock
    rw [List.map_map, show compressBlock ∘ compressBlock = compressBlock from
      funext compressBlock_idem]
  have hfst : (Compress (Compress s).1).1 = (Compress s).1 := by
    show ({ (Compress s).1 with
            blocks := (Compress s).1.blocks.map compressBlock
            isCompressed := true } : ChCSR3Matrix) = (Compress s).1
    rw [hblocks]
    rfl
  refine ⟨hfst, ?_, by rw [hfst], by rw [hfst], by rw [hfst]⟩
  show ((Compress s).1.blocks.any fun b => b.any fun sl => sl.trail < 0) = false
  apply List.any_eq_false.mpr
  intro b hb
  rw [show (Compress s).1.blocks = s.blocks.map compressBlock from rfl] at hb
  obtain ⟨b0, _, rfl⟩ := List.mem_map.mp hb
  rw [Bool.not_eq_true]
  apply List.any_eq_false.mpr
  intro sl hsl
  simp [Int.not_lt.mpr (compressBlock_no_holes hsl)]

/-- C6: duplicate-write policy.  After SetElement(row, col, v1), a second
SetElement(row, col, v2, overwrite=false) leaves the stored value v1 (first
write wins), while overwrite=true stores v2 (second write wins). -/
theorem claim6_duplicate_write_policy {s s1 s2 s3 : ChCSR3Matrix} {row col : Nat} {v1 v2 : Rat}
    (hlen : s.blocks.length = leadDim s)
    (h1 : SetElement s row col v1 true = some s1)
    (hkeep : SetElement s1 row col v2 false = some s2)
    (hover : SetElement s1 row col v2 true = some s3) :
    GetElement s2 row col = v1 ∧ GetElement s3 row col = v2 := by
  obtain ⟨hge1, hlen1, hhas1⟩ := GetElement_SetElement_self hlen h1
  refine ⟨?_, (GetElement_SetElement_self hlen1 hover).1⟩
  rw [GetElement_SetElement_keep hhas1 hkeep, hge1]

/-- Witness for C6 at a concrete matrix: 4 then 9 at (0, 1). -/
theorem claim6_witness : GetElement sampleK2 0 1 = 4 ∧ GetElement sampleK3 0 1 = 9 :=
  @claim6_duplicate_write_policy sampleM0 sampleK1 sampleK2 sampleK3 0 1 4 9
    (by decide) (by decide) (by decide) (by decide)

/-- C7: GetElement is read-only: for an in-range (row, col) with no stored
real entry it returns 0, and the state-transformer form of the call returns
the matrix state unchanged (no mutation, no insertion, no reallocation). -/
theorem claim7_get_element_read_only {s : ChCSR3Matrix} {row col : Nat}
    (hr : row < s.m_num_rows) (hc : col < s.m_num_cols)
    (habs : hasEntry s row col = false) :
    GetElement s row col = 0 ∧ GetElementChecked s row col = (GetElement s row col, s) := by
  rw [hasEntry] at habs
  refine ⟨?_, rfl⟩
  rw [GetElement, rlookup_eq_none (keys_ne_of_not_any habs)]

/-- Witness for C7: reading the never-written (0, 1) of a fresh 3x3 matrix. -/
theorem claim7_witness :
    hasEntry sampleM0 0 1 = false ∧
      (GetElement sampleM0 0 1 = 0 ∧
        GetElementChecked sampleM0 0 1 = (GetElement sampleM0 0 1, sampleM0)) :=
  ⟨by decide, @claim7_get_element_read_only sampleM0 0 1 (by decide) (by decide) (by decide)⟩

/-! ### The constructor's slot budget -/

theorem sum_map_add_nat (l : List Nat) (f g : Nat → Nat) :
    (l.map fun i => f i + g i).sum = (l.map f).sum + (l.map g).sum := by
  induction l with
  | nil => rfl
  | cons a l ih =>
    rw [List.map_cons, List.map_cons, List.map_cons, List.sum_cons, List.sum_cons,
      List.sum_cons, ih]
    omega

theorem sum_map_const_nat (L q : Nat) : ((List.range L).map fun _ => q).sum = L * q := by
  induction L with
  | zero => simp
  | succ n ih =>
    rw [List.range_succ, List.map_append, List.sum_append, ih]
    simp [Nat.succ_mul]

theorem sum_map_indicator_nat (L r : Nat) :
    ((List.range L).map fun i => if i < r then 1 else 0).sum = min r L := by
  induction L with
  | zero => simp
  | succ n ih =>
    rw [List.range_succ, List.map_append, List.sum_append, ih]
    by_cases hr : n < r <;> simp [hr] <;> omega

theorem distributeSlots_sum (total L : Nat) (hL : 0 < L) :
    (distributeSlots total L).sum = total := by
  have h1 : ((List.range L).map fun i => total / L + if i < total % L then 1 else 0).sum =
      ((List.range L).map fun _ => total / L).sum +
        ((List.range L).map fun i => if i < total % L then 1 else 0).sum :=
    sum_map_add_nat (List.range L) (fun _ => total / L) fun i => if i < total % L then 1 else 0
  rw [distributeSlots, h1, sum_map_const_nat, sum_map_indicator_nat,
    Nat.min_eq_left (Nat.le_of_lt (Nat.mod_lt _ hL))]
  exact Nat.div_add_mod total L

theorem distributeSlots_mem_ge {total L k : Nat} (hmem : k ∈ distributeSlots total L)
    (hLtot : L ≤ total) (hL : 0 < L) : 1 ≤ k := by
  rw [distributeSlots] at hmem
  obtain ⟨i, _, rfl⟩ := List.mem_map.mp hmem
  have : 1 ≤ total / L := (Nat.one_le_div_iff hL).mpr hLtot
  omega

theorem totalSlots_mk (nrows ncols : Nat) (rm : Bool) (nonzeros : Int)
    (hL : 0 < (if rm then nrows else ncols)) :
    totalSlots (mkChCSR3Matrix nrows ncols rm nonzeros) =
      initialSlotCount nrows ncols nonzeros := by
  rw [totalSlots]
  rw [show (mkChCSR3Matrix nrows ncols rm nonzeros).blocks =
    (distributeSlots (initialSlotCount nrows ncols nonzeros) (if rm then nrows else ncols)).map
      (fun k => List.replicate k holeSlot) from rfl]
  rw [List.map_map,
    show List.length ∘ (fun k => List.replicate k holeSlot) = id from
      funext fun k => List.length_replicate k holeSlot,
    List.map_id]
  exact distributeSlots_sum _ _ hL

theorem leadLen_le_initialSlotCount (nrows ncols : Nat) (rm : Bool) (nonzeros : Int) :
    (if rm then nrows else ncols) ≤ initialSlotCount nrows ncols nonzeros := by
  rw [initialSlotCount]
  cases rm <;> simp <;> omega

/-- C5: the constructor's slot budget.  A nonzero hint in (0, 1] (as a C
int, the single value 1) allocates that fraction of rows*cols slots in
total; a hint above 1 is an absolute total; a budget below max(rows, cols)
is rounded up to it, so every leading-dimension row receives at least one
slot. -/
theorem claim5_constructor_budget (nrows ncols : Nat) (rm : Bool) (nonzeros : Int)
    (hr : 0 < nrows) (hc : 0 < ncols) :
    totalSlots (mkChCSR3Matrix nrows ncols rm nonzeros) =
      (if 1 < nonzeros then max nonzeros.toNat (max nrows ncols)
       else if 0 < nonzeros then nrows * ncols
       else max nrows ncols) ∧
    ∀ b ∈ (mkChCSR3Matrix nrows ncols rm nonzeros).blocks, 1 ≤ b.length := by
  have hL : 0 < (if rm then nrows else ncols) := by cases rm <;> simpa
  constructor
  · rw [totalSlots_mk nrows ncols rm nonzeros hL, initialSlotCount]
    by_cases h1 : 1 < nonzeros
    · rw [if_pos h1, if_pos h1]
    · rw [if_neg h1]
      by_cases h0 : 0 < nonzeros
      · rw [if_pos h0, if_pos h0]
        have hone : nonzeros = 1 := by omega
        subst hone
        have hbase : ((1 : Int) * (nrows * ncols : Nat)).toNat = nrows * ncols := by
          rw [one_mul]
          generalize nrows * ncols = m
          omega
        rw [hbase]
        have hle : max nrows ncols ≤ nrows * ncols := by
          apply Nat.max_le.mpr
          exact ⟨Nat.le_mul_of_pos_right nrows hc, Nat.le_mul_of_pos_left ncols hr⟩
        exact Nat.max_eq_left hle
      · rw [if_neg h0, if_neg h0, if_neg h1]
        simp
  · intro b hb
    rw [show (mkChCSR3Matrix nrows ncols rm nonzeros).blocks =
      (distributeSlots (initialSlotCount nrows ncols nonzeros) (if rm then nrows else ncols)).map
        (fun k => List.replicate k holeSlot) from rfl] at hb
    obtain ⟨k, hk, rfl⟩ := List.mem_map.mp hb
    rw [List.length_replicate]
    exact distributeSlots_mem_ge hk (leadLen_le_initialSlotCount nrows ncols rm nonzeros) hL

/-- Witness for C5 at rows = 3, cols = 4, hint = 5. -/
theorem claim5_witness :
    (totalSlots (mkChCSR3Matrix 3 4 true 5) =
      (if 1 < (5 : Int) then max (Int.toNat 5) (max 3 4)
       else if 0 < (5 : Int) then 3 * 4
       else max 3 4)) ∧
    ∀ b ∈ (mkChCSR3Matrix 3 4 true 5).blocks, 1 ≤ b.length :=
  claim5_constructor_budget 3 4 true 5 (by decide) (by decide)

/-- C9: in both implementations (the inline bodies in the chrono/core and
chrono_mkl headers are identical), Resize(nrows, ncols, nonzeros) is exactly
Reset(nrows, ncols, nonzeros) followed by returning true; the boolean result
is unconditionally true and carries no information. -/
theorem claim9_resize_is_reset_then_true (s : ChCSR3Matrix) (nrows ncols : Nat)
    (nonzeros : Int) :
    Resize s nrows ncols nonzeros = (Reset s nrows ncols nonzeros, true) ∧
    MklResize s nrows ncols nonzeros = (Reset s nrows ncols nonzeros, true) ∧
    (Resize s nrows ncols nonzeros).2 = true ∧
    (MklResize s nrows ncols nonzeros).2 = true :=
  ⟨rfl, rfl, rfl, rfl⟩

/-! ### Sorting and deduplication used by the pattern learner -/

theorem mem_sortedInsert (x : Nat) (l : List Nat) (y : Nat) :
    y ∈ sortedInsert x l ↔ y = x ∨ y ∈ l := by
  induction l with
  | nil => simp [sortedInsert]
  | cons z zs ih =>
    rw [sortedInsert]
    by_cases h : x ≤ z
    · rw [if_pos h]
      simp [List.mem_cons]
    · rw [if_neg h]
      simp [List.mem_cons, ih, or_left_comm]

theorem sorted_sortedInsert (x : Nat) {l : List Nat} (h : List.Pairwise (· ≤ ·) l) :
    List.Pairwise (· ≤ ·) (sortedInsert x l) := by
  induction l with
  | nil => simp [sortedInsert]
  | cons z zs ih =>
    rw [sortedInsert]
    rcases List.pairwise_cons.mp h with ⟨hz, hzs⟩
    by_cases hxz : x ≤ z
    · rw [if_pos hxz]
      exact List.pairwise_cons.mpr ⟨fun y hy => by
        rcases List.mem_cons.mp hy with rfl | hyz
        · exact hxz
        · exact Nat.le_trans hxz (hz y hyz), h⟩
    · rw [if_neg hxz]
      refine List.pairwise_cons.mpr ⟨fun y hy => ?_, ih hzs⟩
      rcases (mem_sortedInsert x zs y).mp hy with rfl | hyz
      · exact Nat.le_of_not_le hxz
      · exact hz y hyz

theorem mem_sortList (l : List Nat) (y : Nat) : y ∈ sortList l ↔ y ∈ l := by
  induction l with
  | nil => simp [sortList]
  | cons x xs ih => rw [sortList, mem_sortedInsert, ih, List.mem_cons]

theorem sorted_sortList (l : List Nat) : List.Pairwise (· ≤ ·) (sortList l) := by
  induction l with
  | nil => simp [sortList]
  | cons x xs ih => exact sorted_sortedInsert x ih

theorem mem_uniqueAdj : ∀ (l : List Nat) (y : Nat), y ∈ uniqueAdj l ↔ y ∈ l := by
  intro l
  induction l with
  | nil => simp [uniqueAdj]
  | cons x xs ih =>
    cases xs with
    | nil => simp [uniqueAdj]
    | cons z zs =>
      intro y
      rw [uniqueAdj]
      by_cases hxz : x = z
      · rw [if_pos hxz]
        subst hxz
        rw [ih y]
        simp [List.mem_cons, or_assoc]
      · rw [if_neg hxz]
        simp [List.mem_cons, ih y]

theorem strict_uniqueAdj : ∀ {l : List Nat}, List.Pairwise (· ≤ ·) l →
    List.Pairwise (· < ·) (uniqueAdj l) := by
  intro l
  induction l with
  | nil => intro _; simp [uniqueAdj]
  | cons x xs ih =>
    intro h
    rcases List.pairwise_cons.mp h with ⟨hx, hxs⟩
    cases xs with
    | nil => simp [uniqueAdj]
    | cons z zs =>
      rw [uniqueAdj]
      by_cases hxz : x = z
      · rw [if_pos hxz]
        exact ih hxs
      · rw [if_neg hxz]
        refine List.pairwise_cons.mpr ⟨fun y hy => ?_, ih hxs⟩
        have hyzzs : y ∈ z :: zs := (mem_uniqueAdj (z :: zs) y).mp hy
        have hxy : x ≤ y := hx y hyzzs
        rcases List.mem_cons.mp hyzzs with rfl | hyzs
        · exact Nat.lt_of_le_of_ne hxy hxz
        · exact Nat.lt_of_le_of_ne hxy fun hEq => by
            have hzy : z ≤ y := (List.pairwise_cons.mp hxs).1 y hyzs
            have hxz2 : x ≤ z := hx z (List.mem_cons_self z zs)
            exact hxz (Nat.le_antisymm hxz2 (Nat.le_trans hzy (Nat.le_of_eq hEq.symm)))

/-! ### The pattern learner's run -/

theorem colsFor_cons (c : Nat × Nat) (cs : List (Nat × Nat)) (r : Nat) :
    colsFor (c :: cs) r = if c.1 = r then c.2 :: colsFor cs r else colsFor cs r := by
  by_cases h : c.1 = r <;> simp [colsFor, List.filter_cons, h]

theorem learner_SetElement_some {l l1 : ChSparsityPatternLearner} {r c : Nat}
    (h : ChSparsityPatternLearner.SetElement l r c = some l1) :
    r < l.row_lists.length ∧
    l1.row_lists = l.row_lists.set r (l.row_lists.getD r [] ++ [c]) := by
  rw [ChSparsityPatternLearner.SetElement] at h
  split at h
  · next hin =>
    cases h
    exact ⟨hin, rfl⟩
  · cases h

theorem runLearner_getD {calls : List (Nat × Nat)} :
    ∀ {l l2 : ChSparsityPatternLearner}, runLearner l calls = some l2 →
      ∀ r, l2.row_lists.getD r [] = l.row_lists.getD r [] ++ colsFor calls r := by
  induction calls with
  | nil =>
    intro l l2 h r
    rw [runLearner] at h
    cases h
    simp [colsFor]
  | cons cl cls ih =>
    intro l l2 h r
    rw [runLearner] at h
    cases hstep : ChSparsityPatternLearner.SetElement l cl.1 cl.2 with
    | none => rw [hstep] at h; cases h
    | some l1 =>
      rw [hstep] at h
      obtain ⟨hin, hrl⟩ := learner_SetElement_some hstep
      rw [ih h r, hrl, colsFor_cons]
      by_cases hr : cl.1 = r
      · subst hr
        rw [getD_set_self hin, if_pos rfl]
        simp [List.append_assoc]
      · rw [getD_set_ne hr, if_neg hr]

theorem getD_map_lists (f : List Nat → List Nat) (hf : f [] = []) (l : List (List Nat))
    (i : Nat) : (l.map f).getD i [] = f (l.getD i []) := by
  rw [List.getD_eq_getElem?_getD, List.getD_eq_getElem?_getD, List.getElem?_map]
  cases h : l[i]? <;> simp [h, hf]

theorem getD_replicate_nil (n r : Nat) : (List.replicate n ([] : List Nat)).getD r [] = [] := by
  rw [List.getD_eq_getElem?_getD]
  cases h : (List.replicate n ([] : List Nat))[r]? with
  | none => rfl
  | some b =>
    have hb : b = [] := List.eq_of_mem_replicate (List.getElem?_mem h)
    simp [hb]

/-- C8: appending learner semantics.  For a learner built from a sequence of
SetElement calls (each indexing inside row_lists, as every in-range call on a
row-major learner does), GetSparsityPattern yields for every row a strictly
ascending list whose members are exactly the columns ever passed for that
row. -/
theorem claim8_learner_pattern {nrows ncols : Nat} {rm : Bool} {calls : List (Nat × Nat)}
    {l2 : ChSparsityPatternLearner}
    (h : runLearner (ChSparsityPatternLearner.mkLearner nrows ncols rm) calls = some l2) :
    ∀ r, List.Pairwise (· < ·) ((ChSparsityPatternLearner.GetSparsityPattern l2).getD r []) ∧
      ∀ x, x ∈ (ChSparsityPatternLearner.GetSparsityPattern l2).getD r [] ↔
        x ∈ colsFor calls r := by
  intro r
  have hgd := runLearner_getD h r
  rw [show (ChSparsityPatternLearner.mkLearner nrows ncols rm).row_lists =
    List.replicate (if rm then nrows else ncols) [] from rfl, getD_replicate_nil,
    List.nil_append] at hgd
  rw [ChSparsityPatternLearner.GetSparsityPattern, getD_map_lists _ rfl, hgd]
  exact ⟨strict_uniqueAdj (sorted_sortList _), fun x => by rw [mem_uniqueAdj, mem_sortList]⟩

def sampleCalls : List (Nat × Nat) := [(0, 0), (0, 1), (0, 2), (1, 1), (1, 2), (2, 2), (0, 1)]

def sampleLearner : ChSparsityPatternLearner :=
  (runLearner (ChSparsityPatternLearner.mkLearner 3 3 true) sampleCalls).getD
    (ChSparsityPatternLearner.mkLearner 3 3 true)

/-- Witness for C8: the spec's 3x3 scenario with one duplicated call. -/
theorem claim8_witness :
    runLearner (ChSparsityPatternLearner.mkLearner 3 3 true) sampleCalls = some sampleLearner ∧
    ∀ r, List.Pairwise (· < ·)
        ((ChSparsityPatternLearner.GetSparsityPattern sampleLearner).getD r []) ∧
      ∀ x, x ∈ (ChSparsityPatternLearner.GetSparsityPattern sampleLearner).getD r [] ↔
        x ∈ colsFor sampleCalls r :=
  ⟨by decide, @claim8_learner_pattern 3 3 true sampleCalls sampleLearner (by decide)⟩

/-- C10: the learner's SetElement always subscripts row_lists by its row
argument, while the constructor sizes row_lists to the leading dimension; for
a column-major learner row_lists has ncols entries, so the write is in bounds
exactly when row < ncols, and even then the column is appended to the list at
index row (no per-column grouping is ever produced). -/
theorem claim10_learner_row_indexing (nrows ncols r c : Nat) (l : ChSparsityPatternLearner) :
    (ChSparsityPatternLearner.mkLearner nrows ncols false).row_lists.length = ncols ∧
    (ChSparsityPatternLearner.SetElement l r c =
      if r < l.row_lists.length then
        some { l with row_lists := l.row_lists.set r (l.row_lists.getD r [] ++ [c]) }
      else none) ∧
    ((ChSparsityPatternLearner.SetElement
      (ChSparsityPatternLearner.mkLearner nrows ncols false) r c).isSome ↔ r < ncols) := by
  refine ⟨?_, rfl, ?_⟩
  · simp [ChSparsityPatternLearner.mkLearner]
  · by_cases hr : r < ncols <;>
      simp [ChSparsityPatternLearner.SetElement, ChSparsityPatternLearner.mkLearner, hr]

/-! ### Counting entries: GetNNZ before and after Compress -/

/-- The (row, col) positions of a call sequence, in call order. -/
def pairsOf (ops : List SetCall) : List (Nat × Nat) :=
  ops.map fun o => (o.row, o.col)

/-- The (row, col) positions of the calls whose value is not the 0.0
default. -/
def nonDefaultPairs (ops : List SetCall) : List (Nat × Nat) :=
  (ops.filter fun o => !(o.v == 0)).map fun o => (o.row, o.col)

/-- The positions of a call sequence in storage (leading, trailing)
coordinates. -/
def leadPairs (rm : Bool) (ops : List SetCall) : List (Nat × Nat) :=
  ops.map fun o => (if rm then o.row else o.col, if rm then o.col else o.row)

theorem GetNNZ_eq_totalSlots (t : ChCSR3Matrix) : GetNNZ t = totalSlots t := by
  rw [GetNNZ, trailIndexOf, totalSlots, List.length_flatten, List.map_map]
  rw [show (List.length ∘ fun b : List Slot => b.map fun sl => sl.trail) = List.length from
    funext fun b => List.length_map b _]

theorem list_map_sum_eq_range_sum {α : Type} (f : α → Nat) (d : α) :
    ∀ l : List α, (l.map f).sum = ∑ i in Finset.range l.length, f (l.getD i d) := by
  intro l
  induction l with
  | nil => simp
  | cons a l ih =>
    rw [List.map_cons, List.sum_cons, ih, List.length_cons, Finset.sum_range_succ']
    simp [Nat.add_comm]

theorem GetNNZ_Compress (s : ChCSR3Matrix) :
    GetNNZ (Compress s).1 = (s.blocks.map fun b => (reals b).length).sum := by
  rw [GetNNZ_eq_totalSlots, totalSlots,
    show (Compress s).1.blocks = s.blocks.map compressBlock from rfl, List.map_map,
    show (List.length ∘ compressBlock) = fun b => (reals b).length from
      funext length_compressBlock]

/-- The invariant tying a matrix state to the set `P` of distinct written
positions, in (leading, trailing) coordinates: the block list covers the
leading dimension, every recorded position is in range, and every block's
real trailing indices are exactly (and without duplicates) the recorded
trailing coordinates of its leading index. -/
def csrInv (P : Finset (Nat × Nat)) (s : ChCSR3Matrix) : Prop :=
  s.blocks.length = leadDim s ∧ (∀ q ∈ P, q.1 < leadDim s) ∧
  ∀ i, (realTrails (s.blocks.getD i [])).Nodup ∧
    ∀ t : Int, t ∈ realTrails (s.blocks.getD i []) ↔
      ∃ tn : Nat, t = Int.ofNat tn ∧ (i, tn) ∈ P

theorem reals_mk_getD (nrows ncols : Nat) (rm : Bool) (nz : Int) (i : Nat) :
    reals ((mkChCSR3Matrix nrows ncols rm nz).blocks.getD i []) = [] := by
  rw [show (mkChCSR3Matrix nrows ncols rm nz).blocks =
    (distributeSlots (initialSlotCount nrows ncols nz) (if rm then nrows else ncols)).map
      (fun k => List.replicate k holeSlot) from rfl]
  rw [List.getD_eq_getElem?_getD, List.getElem?_map]
  cases h : (distributeSlots (initialSlotCount nrows ncols nz)
      (if rm then nrows else ncols))[i]? with
  | none => simp [reals_nil]
  | some k => simp [reals_replicate_hole]

theorem csrInv_mk (nrows ncols : Nat) (rm : Bool) (nz : Int) :
    csrInv ∅ (mkChCSR3Matrix nrows ncols rm nz) := by
  refine ⟨?_, by simp, ?_⟩
  · rw [show (mkChCSR3Matrix nrows ncols rm nz).blocks =
      (distributeSlots (initialSlotCount nrows ncols nz) (if rm then nrows else ncols)).map
        (fun k => List.replicate k holeSlot) from rfl, List.length_map, distributeSlots,
      List.length_map, List.length_range]
    rfl
  · intro i
    rw [realTrails, reals_mk_getD]
    simp

theorem realTrails_map_owUpdate {c : Int} (hc : 0 ≤ c) (v : Rat) (ow : Bool)
    (block : List Slot) :
    realTrails (block.map (owUpdate c v ow)) = realTrails block := by
  cases ow with
  | false => rw [map_owUpdate_false]
  | true =>
    rw [realTrails, reals_map_owUpdate hc, realTrails, List.map_map,
      show ((fun p : Int × Rat => p.1) ∘ fun p : Int × Rat => if p.1 = c then (p.1, v) else p) =
        fun p : Int × Rat => p.1 from funext fun p => by by_cases h : p.1 = c <;> simp [h]]

theorem mem_realTrails_of_any {block : List Slot} {c : Int} (hc : 0 ≤ c)
    (hany : block.any (fun sl => sl.trail = c) = true) : c ∈ realTrails block := by
  obtain ⟨sl, hmem, hp⟩ := List.any_eq_true.mp hany
  have htr : sl.trail = c := by simpa using hp
  rw [realTrails]
  refine List.mem_map.mpr ⟨(sl.trail, sl.value), ?_, htr⟩
  exact List.mem_filterMap.mpr ⟨sl, hmem, by rw [if_pos (htr ▸ hc)]⟩

theorem not_mem_realTrails_of_not_any {block : List Slot} {c : Int}
    (hany : block.any (fun sl => sl.trail = c) = false) : c ∉ realTrails block := by
  intro hmem
  obtain ⟨p, hp, hfst⟩ := List.mem_map.mp hmem
  exact keys_ne_of_not_any hany p hp hfst

theorem csrInv_SetElement {s s1 : ChCSR3Matrix} {row col : Nat} {v : Rat} {ow : Bool}
    {P : Finset (Nat × Nat)}
    (hinv : csrInv P s)
    (h : SetElement s row col v ow = some s1) :
    csrInv (insert (leadSel s row col, if s.row_major_format then col else row) P) s1 ∧
      s1.row_major_format = s.row_major_format := by
  obtain ⟨hr, hc, hrows, hcols, hrm, hms, base, ms1, block1, hbl, hbr, hsr, hbs⟩ :=
    SetElement_some h
  obtain ⟨hlenInv, hPlt, hblocks⟩ := hinv
  have htc : trailSel s row col = Int.ofNat (if s.row_major_format then col else row) := rfl
  have hleadlt : leadSel s row col < leadDim s := leadSel_lt_leadDim hr hc
  have hleadbase : leadSel s row col < base.length := by rw [hbl, hlenInv]; exact hleadlt
  have hldim1 : leadDim s1 = leadDim s := by rw [leadDim, leadDim, hrm, hrows, hcols]
  have htrails_base : ∀ i, realTrails (base.getD i []) = realTrails (s.blocks.getD i []) :=
    fun i => by rw [realTrails, realTrails, hbr]
  refine ⟨⟨?_, ?_, ?_⟩, hrm⟩
  · rw [hbs, List.length_set, hbl, hlenInv, hldim1]
  · intro q hq
    rw [hldim1]
    rcases Finset.mem_insert.mp hq with rfl | hqP
    · exact hleadlt
    · exact hPlt q hqP
  · intro i
    by_cases hi : leadSel s row col = i
    · subst hi
      have hgd : s1.blocks.getD (leadSel s row col) [] = block1 := by
        rw [hbs]
        exact getD_set_self hleadbase
      rw [hgd]
      cases hany : (base.getD (leadSel s row col) []).any
          (fun sl => sl.trail = trailSel s row col) with
      | true =>
        rw [setRow_any hany hsr, realTrails_map_owUpdate (trailSel_nonneg s row col) v ow,
          htrails_base]
        have hcmem : trailSel s row col ∈ realTrails (s.blocks.getD (leadSel s row col) []) := by
          rw [← htrails_base]
          exact mem_realTrails_of_any (trailSel_nonneg s row col) hany
        refine ⟨(hblocks (leadSel s row col)).1, fun t => ?_⟩
        rw [(hblocks (leadSel s row col)).2 t]
        constructor
        · rintro ⟨tn2, rfl, hP2⟩
          exact ⟨tn2, rfl, Finset.mem_insert_of_mem hP2⟩
        · rintro ⟨tn2, rfl, hP2⟩
          rcases Finset.mem_insert.mp hP2 with hEq | hP3
          · have htn2 : tn2 = (if s.row_major_format then col else row) := by
              have := congrArg Prod.snd hEq
              simpa using this
            rw [htn2]
            exact ((hblocks (leadSel s row col)).2
              (Int.ofNat (if s.row_major_format then col else row))).mp (htc ▸ hcmem)
          · exact ⟨tn2, rfl, hP3⟩
      | false =>
        obtain ⟨A, B, hAB, hAB1⟩ := setRow_insert (trailSel_nonneg s row col) hany hsr
        have htr1 : realTrails block1 =
            A.map (fun p => p.1) ++ trailSel s row col :: B.map (fun p => p.1) := by
          rw [realTrails, hAB1, List.map_append, List.map_cons]
        have htr0 : realTrails (s.blocks.getD (leadSel s row col) []) =
            A.map (fun p => p.1) ++ B.map (fun p => p.1) := by
          rw [← htrails_base, realTrails, hAB, List.map_append]
        have hperm : (realTrails block1).Perm
            (trailSel s row col :: realTrails (s.blocks.getD (leadSel s row col) [])) := by
          rw [htr1, htr0]
          exact List.perm_middle
        have hcnot : trailSel s row col ∉ realTrails (s.blocks.getD (leadSel s row col) []) := by
          rw [← htrails_base]
          exact not_mem_realTrails_of_not_any hany
        constructor
        · exact hperm.nodup_iff.mpr
            (List.nodup_cons.mpr ⟨hcnot, (hblocks (leadSel s row col)).1⟩)
        · intro t
          rw [hperm.mem_iff, List.mem_cons, (hblocks (leadSel s row col)).2 t]
          constructor
          · rintro (rfl | ⟨tn2, rfl, hP2⟩)
            · exact ⟨if s.row_major_format then col else row, htc, Finset.mem_insert_self _ _⟩
            · exact ⟨tn2, rfl, Finset.mem_insert_of_mem hP2⟩
          · rintro ⟨tn2, rfl, hP2⟩
            rcases Finset.mem_insert.mp hP2 with hEq | hP3
            · left
              have htn2 : tn2 = (if s.row_major_format then col else row) := by
                have := congrArg Prod.snd hEq
                simpa using this
              rw [htn2, htc]
            · right
              exact ⟨tn2, rfl, hP3⟩
    · have hgd : s1.blocks.getD i [] = base.getD i [] := by
        rw [hbs]
        exact getD_set_ne hi
      rw [hgd, htrails_base]
      refine ⟨(hblocks i).1, fun t => ?_⟩
      rw [(hblocks i).2 t]
      constructor
      · rintro ⟨tn2, rfl, hP2⟩
        exact ⟨tn2, rfl, Finset.mem_insert_of_mem hP2⟩
      · rintro ⟨tn2, rfl, hP2⟩
        rcases Finset.mem_insert.mp hP2 with hEq | hP3
        · exfalso
          exact hi (congrArg Prod.fst hEq).symm
        · exact ⟨tn2, rfl, hP3⟩

theorem runSets_csrInv {ops : List SetCall} :
    ∀ {s s2 : ChCSR3Matrix} {P : Finset (Nat × Nat)},
      csrInv P s → runSets s ops = some s2 →
      csrInv (P ∪ (leadPairs s.row_major_format ops).toFinset) s2 := by
  induction ops with
  | nil =>
    intro s s2 P hinv h
    rw [runSets] at h
    cases h
    simpa [leadPairs] using hinv
  | cons o os ih =>
    intro s s2 P hinv h
    rw [runSets] at h
    cases hstep : SetElement s o.row o.col o.v o.ow with
    | none => rw [hstep] at h; cases h
    | some s1 =>
      rw [hstep] at h
      obtain ⟨hinv1, hrm1⟩ := csrInv_SetElement hinv hstep
      have hrec := ih hinv1 h
      rw [hrm1] at hrec
      rw [show P ∪ (leadPairs s.row_major_format (o :: os)).toFinset =
          insert (leadSel s o.row o.col, if s.row_major_format then o.col else o.row) P ∪
            (leadPairs s.row_major_format os).toFinset from by
        rw [leadPairs, List.map_cons, List.toFinset_cons, Finset.union_insert,
          Finset.insert_union]
        rfl]
      exact hrec

theorem csrInv_count {P : Finset (Nat × Nat)} {s : ChCSR3Matrix} (hinv : csrInv P s) :
    GetNNZ (Compress s).1 = P.card := by
  obtain ⟨hlen, hPlt, hblocks⟩ := hinv
  rw [GetNNZ_Compress, list_map_sum_eq_range_sum (fun b => (reals b).length) [] s.blocks, hlen]
  rw [@Finset.card_eq_sum_card_fiberwise _ _ _ Prod.fst P (Finset.range (leadDim s))
    (fun q hq => Finset.mem_range.mpr (hPlt q hq))]
  apply Finset.sum_congr rfl
  intro i _
  have hnod := (hblocks i).1
  have hmem := (hblocks i).2
  rw [show (reals (s.blocks.getD i [])).length = (realTrails (s.blocks.getD i [])).length from
    by rw [realTrails, List.length_map], ← List.toFinset_card_of_nodup hnod]
  have himg : (realTrails (s.blocks.getD i [])).toFinset =
      (P.filter fun q => q.1 = i).image (fun q => (Int.ofNat q.2 : Int)) := by
    apply Finset.ext
    intro t
    rw [List.mem_toFinset, hmem t, Finset.mem_image]
    constructor
    · rintro ⟨tn, rfl, hP⟩
      exact ⟨(i, tn), Finset.mem_filter.mpr ⟨hP, rfl⟩, rfl⟩
    · rintro ⟨q, hq, rfl⟩
      obtain ⟨hqP, hq1⟩ := Finset.mem_filter.mp hq
      refine ⟨q.2, rfl, ?_⟩
      rw [← hq1]
      exact hqP
  rw [himg, Finset.card_image_of_injOn]
  intro q1 hq1 q2 hq2 hEq
  have h11 : q1.1 = i := (Finset.mem_filter.mp (Finset.mem_coe.mp hq1)).2
  have h21 : q2.1 = i := (Finset.mem_filter.mp (Finset.mem_coe.mp hq2)).2
  have h2 : q1.2 = q2.2 := Int.ofNat.inj hEq
  exact Prod.ext (h11.trans h21.symm) h2

theorem leadPairs_card (rm : Bool) (ops : List SetCall) :
    (leadPairs rm ops).toFinset.card = (pairsOf ops).toFinset.card := by
  cases rm with
  | true => rw [show leadPairs true ops = pairsOf ops from rfl]
  | false =>
    have hswap : (leadPairs false ops).toFinset =
        (pairsOf ops).toFinset.image (fun p : Nat × Nat => (p.2, p.1)) := by
      apply Finset.ext
      intro q
      rw [List.mem_toFinset, Finset.mem_image]
      constructor
      · intro hq
        obtain ⟨o, ho, rfl⟩ := List.mem_map.mp hq
        exact ⟨(o.row, o.col), List.mem_toFinset.mpr (List.mem_map.mpr ⟨o, ho, rfl⟩), rfl⟩
      · rintro ⟨p, hp, rfl⟩
        obtain ⟨o, ho, rfl⟩ := List.mem_map.mp (List.mem_toFinset.mp hp)
        exact List.mem_map.mpr ⟨o, ho, rfl⟩
    have hinj : Function.Injective (fun p : Nat × Nat => (p.2, p.1)) := by
      intro p q hpq
      exact Prod.ext (congrArg Prod.snd hpq) (congrArg Prod.fst hpq)
    rw [hswap, Finset.card_image_of_injective _ hinj]

/-- C4 as stated is refuted by an explicit write of the value 0: the write
creates a real slot that Compress keeps, so GetNNZ after Compress is 1 while
no (row, col) pair was ever written with a non-default value. -/
theorem claim4_counterexample :
    (runSets (mkChCSR3Matrix 1 1 true 1) [⟨0, 0, 0, true⟩]).map
        (fun s => GetNNZ (Compress s).1) = some 1 ∧
    (nonDefaultPairs [⟨0, 0, 0, true⟩]).toFinset.card = 0 := by decide

/-- C4 amended: GetNNZ always returns the raw slot count (holes included),
and immediately after Compress it equals the number of distinct (row, col)
pairs ever written, whatever the written values (explicit zeros included). -/
theorem claim4_nnz_after_compress (rows cols : Nat) (rm : Bool) (nz : Int)
    (ops : List SetCall) (s : ChCSR3Matrix)
    (h : runSets (mkChCSR3Matrix rows cols rm nz) ops = some s) :
    GetNNZ (Compress s).1 = (pairsOf ops).toFinset.card ∧
    ∀ t : ChCSR3Matrix, GetNNZ t = (t.blocks.map List.length).sum := by
  refine ⟨?_, fun t => GetNNZ_eq_totalSlots t⟩
  have hinv := runSets_csrInv (csrInv_mk rows cols rm nz) h
  rw [Finset.empty_union] at hinv
  rw [csrInv_count hinv]
  exact leadPairs_card rm ops

/-- Witness for the amended C4: three writes, one duplicated position and
one explicit zero, over a 2x2 matrix; two distinct positions remain. -/
theorem claim4_witness :
    GetNNZ (Compress ((runSets (mkChCSR3Matrix 2 2 true 4)
        [⟨0, 0, 1, true⟩, ⟨0, 1, 0, true⟩, ⟨0, 0, 3, true⟩]).getD
      (mkChCSR3Matrix 2 2 true 4))).1 =
      (pairsOf [⟨0, 0, 1, true⟩, ⟨0, 1, 0, true⟩, ⟨0, 0, 3, true⟩]).toFinset.card ∧
    ∀ t : ChCSR3Matrix, GetNNZ t = (t.blocks.map List.length).sum :=
  claim4_nnz_after_compress 2 2 true 4
    [⟨0, 0, 1, true⟩, ⟨0, 1, 0, true⟩, ⟨0, 0, 3, true⟩]
    ((runSets (mkChCSR3Matrix 2 2 true 4)
        [⟨0, 0, 1, true⟩, ⟨0, 1, 0, true⟩, ⟨0, 0, 3, true⟩]).getD
      (mkChCSR3Matrix 2 2 true 4))
    (by decide)

end Chrono
